import Mathlib

/-!
Shallow embedding of the melodic placement engine of `all_triples.py`
(interval model, pitch mapper, octave placement solver, repetition offset
calculator), together with theorems checking the claims of the specification.

Conventions of the embedding:
* Python integers are `Int`; Python `%` on a positive divisor agrees with
  `Int.emod`, and Python `divmod` (floored) is `Int.fdiv` / `Int.fmod`.
* A Python function that can fail to return normally (an assertion failure,
  a `KeyError`, a non-terminating loop, or a fall-through returning `None`)
  is embedded as an `Option`-valued function, `none` standing for the
  abnormal outcome.  The `while` loop of `computeOctaveOffset` is run on an
  explicit iteration bound (`octaveFuel`) that is proved sufficient whenever
  the loop terminates (`computeOctaveOffset_some_of_fit`), so `none` is a
  faithful rendering of non-termination.
* The in-place mutation of `Triple.offset` is rendered functionally: the
  solver returns the updated `Triple`.
-/

namespace AllTriples

/-- Semitone lookup table `d2m = {1:0, 2:2, 3:4, 4:5, 5:7, 6:9, 7:11}`
(line 12).  In Python any other key raises `KeyError`; the default 0 here is
unreachable because every call site is guarded by the degree assertion in
`intervalReduced`. -/
def d2m (d : Int) : Int :=
  if d = 1 then 0 else if d = 2 then 2 else if d = 3 then 4 else if d = 4 then 5
  else if d = 5 then 7 else if d = 6 then 9 else if d = 7 then 11 else 0

/-- Ascending diatonic interval between two degree numbers (lines 34-40):
convert to 0-indexed, subtract, reduce mod 7, convert back to 1-indexed. -/
def intervalAsc (p1 p2 : Int) : Int :=
  1 + ((p2 - 1) - (p1 - 1)) % 7

/-- Interval constrained to the nearest 4th (lines 42-46).  The Python
`assert 1 <= p1 <= 7 and 1 <= p2 <= 7` is rendered as the `none` branch. -/
def intervalReduced (p1 p2 : Int) : Option Int :=
  if 1 ≤ p1 ∧ p1 ≤ 7 ∧ 1 ≤ p2 ∧ p2 ≤ 7 then
    some (if intervalAsc p1 p2 ≤ 4 then intervalAsc p1 p2 else -(9 - intervalAsc p1 p2))
  else none

/-- Accumulator loop of `excursion` (lines 177-180): walk consecutive pairs,
adding `ir - 1` for a positive reduced interval and `ir + 1` for a negative
one. -/
def excursionAcc : Int → List Int → Option Int
  | x, p :: q :: rest =>
    match intervalReduced p q with
    | none => none
    | some ir => excursionAcc (if ir > 0 then x + (ir - 1) else x + (ir + 1)) (q :: rest)
  | x, _ => some x

/-- Intervallic excursion of a pitch sequence (lines 175-181), with the final
bias away from zero. -/
def excursion (pitches : List Int) : Option Int :=
  match excursionAcc 0 pitches with
  | none => none
  | some x => some (if x ≥ 0 then x + 1 else x - 1)

/-- One ordered 3-tuple of scale degrees with its excursion and the octave
offset assigned by the solver (lines 16-20). -/
structure Triple where
  nums : Int × Int × Int
  excursion : Option Int
  offset : Int
deriving DecidableEq, Repr

/-- Constructor of `Triple` (lines 17-20): the excursion is computed once at
construction, `offset` starts at 0. -/
def mkTriple (pitchnums : Int × Int × Int) : Triple :=
  { nums := pitchnums
    excursion := excursion [pitchnums.1, pitchnums.2.1, pitchnums.2.2]
    offset := 0 }

/-- Key-signature lookup table of `midiFirst` (lines 53-57), mapping the key
number to the assumed prior degree and midi pitch; other keys raise
`KeyError` in Python. -/
def cdegreemidi (keynum : Int) : Option (Int × Int) :=
  if keynum = 0 then some (1, 60) else if keynum = 1 then some (7, 60)
  else if keynum = 2 then some (7, 61) else if keynum = 3 then some (6, 60)
  else if keynum = 4 then some (6, 61) else if keynum = 5 then some (5, 60)
  else if keynum = 6 then some (4, 59) else if keynum = 7 then some (4, 60)
  else if keynum = 8 then some (3, 60) else if keynum = 9 then some (3, 61)
  else if keynum = 10 then some (2, 60) else if keynum = 11 then some (2, 61)
  else none

/-- Midi number and degree of the assumed prior pitch (lines 48-61); for key
5 in harmonic mode the pitch is raised a semitone. -/
def midiFirst (keynum : Int) (harmonic : Bool) : Option (Int × Int) :=
  match cdegreemidi keynum with
  | none => none
  | some (d0, m0) => some (if keynum = 5 ∧ harmonic = true then m0 + 1 else m0, d0)

/-- Midi number of degree `d1` given the preceding midi number `m0` and
degree `d0` (lines 64-89).  The final `none` is the implicit Python
fall-through that returns no value; a `none` from `intervalReduced` is the
assertion failure propagating. -/
def midiNext (m0 d0 d1 : Int) (harmonic : Bool) : Option Int :=
  if d0 = d1 then some m0
  else
    match intervalReduced d0 d1 with
    | none => none
    | some ir =>
      let extra : Int :=
        if harmonic = true then (if d0 = 5 then -1 else if d1 = 5 then 1 else 0) else 0
      if ir ≥ 1 ∧ d1 > d0 then some (m0 + d2m d1 - d2m d0 + extra)
      else if ir ≥ 1 ∧ d1 < d0 then some (m0 + 12 + d2m d1 - d2m d0 + extra)
      else if ir < 1 ∧ d1 > d0 then some (m0 - 12 + d2m d1 - d2m d0 + extra)
      else if ir < 1 ∧ d1 < d0 then some (m0 + d2m d1 - d2m d0 + extra)
      else none

/-- The `while` loop of `computeOctaveOffset` (lines 97-105), on an explicit
iteration bound.  `offset12` moves by 12 toward the window; on entering the
window the loop returns `offset12 // 12`. -/
def octaveLoop (mlo m mhi : Int) : Nat → Int → Option Int
  | 0, _ => none
  | fuel + 1, offset12 =>
    if mlo ≤ offset12 + m ∧ offset12 + m ≤ mhi then some (offset12 / 12)
    else if offset12 + m < mlo then octaveLoop mlo m mhi fuel (offset12 + 12)
    else octaveLoop mlo m mhi fuel (offset12 - 12)

/-- Iteration bound for `octaveLoop`, proved sufficient whenever the loop
terminates (`computeOctaveOffset_some_of_fit`). -/
def octaveFuel (mlo m mhi : Int) : Nat :=
  (mlo - m).toNat + (m - mhi).toNat + 1

/-- Octave correction moving midi pitch `m` into the inclusive window
`[mlo, mhi]` (lines 91-105).  `none` renders either the failure of the
Python range assertion or non-termination of the loop. -/
def computeOctaveOffset (mlo m mhi : Int) : Option Int :=
  if 0 ≤ mlo ∧ mlo < mhi ∧ mhi < 128 then
    octaveLoop mlo m mhi (octaveFuel mlo m mhi) 0
  else none

/-- Chained absolute pitches of the three degrees of a triple (lines
123-129): each `midiNext` call starts from the previous pitch and degree. -/
def midiChain (m0 d0 : Int) (nums : Int × Int × Int) (harmonic : Bool) :
    Option (Int × Int × Int) :=
  match midiNext m0 d0 nums.1 harmonic with
  | none => none
  | some q1 =>
    match midiNext q1 nums.1 nums.2.1 harmonic with
    | none => none
    | some q2 =>
      match midiNext q2 nums.2.1 nums.2.2 harmonic with
      | none => none
      | some q3 => some (q1, q2, q3)

/-- `offsets[tries]` of line 142 for `tries` in `{0, 1, 2}`. -/
def offsetAt (o1 o2 o3 : Int) : Nat → Int
  | 0 => o1
  | 1 => o2
  | _ => o3

/-- Result type of `computeTripleOffset`: the Python tuple
`(success, last midi or None, last degree or None)` plus the (possibly
updated) `Triple`. -/
abbrev PlaceResult := Bool × Option Int × Option Int × Triple

/-- The `while True` retry loop of `computeTripleOffset` (lines 120-146).
`rem` equals `4 - tries` throughout: the loop body runs for `tries` equal to
0, 1, 2, 3 and returns at `tries = 3` at the latest, so the fuel-exhaustion
branch is unreachable from `computeTripleOffset`. -/
def tripleLoop (m0 d0 : Int) (t : Triple) (mlo mhi : Int) (harmonic : Bool) :
    Int → Nat → Nat → Option PlaceResult
  | _, _, 0 => none
  | trialoffset, tries, rem + 1 =>
    match midiChain m0 d0 t.nums harmonic with
    | none => none
    | some (q1, q2, q3) =>
      match computeOctaveOffset mlo (q1 + 12 * trialoffset) mhi,
            computeOctaveOffset mlo (q2 + 12 * trialoffset) mhi,
            computeOctaveOffset mlo (q3 + 12 * trialoffset) mhi with
      | some o1, some o2, some o3 =>
        if o2 = o1 ∧ o3 = o1 then
          let off := if tries = 0 then o1 else trialoffset
          some (true, some (q3 + 12 * off), some t.nums.2.2, { t with offset := off })
        else if tries < 3 then
          tripleLoop m0 d0 t mlo mhi harmonic (offsetAt o1 o2 o3 tries) (tries + 1) rem
        else
          some (false, none, none, t)
      | _, _, _ => none

/-- Octave placement of one triple (lines 107-146): searches, in at most 4
trials, an offset placing all three chained pitches inside `[mlo, mhi]`. -/
def computeTripleOffset (m0 d0 : Int) (t : Triple) (mlo mhi : Int) (harmonic : Bool) :
    Option PlaceResult :=
  tripleLoop m0 d0 t mlo mhi harmonic 0 0 4

/-- Traversal of `constrain2` (lines 154-156): place each triple in order,
threading the returned pitch and degree; `none` when a placement fails (the
Python `assert success` raising) or does not return. -/
def constrain2Go (mlo mhi : Int) (harmonic : Bool) : Int → Int → List Triple → Option (List Triple)
  | _, _, [] => some []
  | m, d, t :: rest =>
    match computeTripleOffset m d t mlo mhi harmonic with
    | some (true, some m2, some d2, t2) =>
      match constrain2Go mlo mhi harmonic m2 d2 rest with
      | some rest2 => some (t2 :: rest2)
      | none => none
    | _ => none

/-- Batch placement (lines 148-156): continuity state initialized from
`midiFirst`, then each triple placed in sequence order.  Returns the list of
updated triples, `none` on any failure. -/
def constrain2 (triples : List Triple) (mlo mhi keynum : Int) (harmonic : Bool) :
    Option (List Triple) :=
  match midiFirst keynum harmonic with
  | none => none
  | some (m, d) => constrain2Go mlo mhi harmonic m d triples

/-- Octave offset for repeating a group without drift (lines 216-226), using
Python floored `divmod` via `Int.fdiv` / `Int.fmod`. -/
def repetitionOffset (xcursion : Int) : Int :=
  if xcursion = 0 then 0
  else if xcursion > 0 then
    let n := Int.fdiv xcursion 8
    let r := Int.fmod xcursion 8
    if r + n ≤ 4 then -n else n - 1
  else
    let n := Int.fdiv xcursion (-8)
    let r := Int.fmod xcursion (-8)
    if r - n ≥ -4 then n else n + 1

/-- One fold step of the fold formulation of `excursion` in the claim: add `ir - 1`
for a positive reduced interval of the pair, `ir + 1` for a negative one. -/
def excursionStep (x : Int) (pq : Int × Int) : Option Int :=
  match intervalReduced pq.1 pq.2 with
  | none => none
  | some ir => some (if ir > 0 then x + (ir - 1) else x + (ir + 1))

/-- Excursion phrased as the specification words it: a fold over the list of
consecutive pairs, then the end bias.  Used to compare `excursion` against
the fold formulation of the claim. -/
def excursionSpecFold (pitches : List Int) : Option Int :=
  match (pitches.zip pitches.tail).foldlM excursionStep 0 with
  | none => none
  | some x => some (if x ≥ 0 then x + 1 else x - 1)

/-- Everything a terminating run of the octave-search loop started at offset
0 guarantees about its result `v`: the shifted pitch is in the window, and
the step just before entering the window was still outside it (which makes
`v` the fit of smallest magnitude). -/
def KOut (mlo mhi x v : Int) : Prop :=
  (mlo ≤ x + 12 * v ∧ x + 12 * v ≤ mhi) ∧
  (1 ≤ v → x + 12 * v - 12 < mlo) ∧
  (v ≤ -1 → x + 12 * v + 12 > mhi)

/-- Continuity-threaded placement of a list of triples: the pitch and degree returned by each step
are exactly the prior pitch and degree of the next step. -/
inductive Placed (mlo mhi : Int) (harmonic : Bool) : Int → Int → List Triple → List Triple → Prop
  | nil (m d : Int) : Placed mlo mhi harmonic m d [] []
  | cons (m d m2 d2 : Int) (t t2 : Triple) (ts ts2 : List Triple)
      (hstep : computeTripleOffset m d t mlo mhi harmonic = some (true, some m2, some d2, t2))
      (hrest : Placed mlo mhi harmonic m2 d2 ts ts2) :
      Placed mlo mhi harmonic m d (t :: ts) (t2 :: ts2)

theorem offset_update (t : Triple) (v : Int) : ({ t with offset := v } : Triple).offset = v := rfl

theorem nums_update (t : Triple) (v : Int) : ({ t with offset := v } : Triple).nums = t.nums := rfl

-- Sanity anchors mirroring the Python unit tests.

example : midiNext 60 1 1 false = some 60 := by decide
example : midiNext 64 2 4 false = some 67 := by decide
example : midiNext 64 2 7 false = some 61 := by decide
example : midiNext 70 5 4 true = some 67 := by decide
example : midiNext 70 5 6 true = some 71 := by decide
example : midiNext 67 4 5 true = some 70 := by decide
example : midiNext 71 6 5 true = some 70 := by decide
example : midiNext 70 5 1 true = some 74 := by decide
example : midiFirst 0 false = some (60, 1) := by decide
example : midiFirst 2 false = some (61, 7) := by decide
example : midiFirst 5 true = some (61, 5) := by decide
example : computeOctaveOffset 60 60 72 = some 0 := by decide
example : computeOctaveOffset 60 59 72 = some 1 := by decide
example : computeOctaveOffset 60 73 72 = some (-1) := by decide
example : computeOctaveOffset 60 47 72 = some 2 := by decide
example : computeOctaveOffset 60 85 72 = some (-2) := by decide
example : excursion [1, 3, 5] = some 5 := by decide
example : excursion [1, 5, 3] = some (-6) := by decide
example : excursion [1, 3, 5, 1, 3] = some 10 := by decide
example : repetitionOffset 4 = 0 := by decide
example : repetitionOffset (-4) = 0 := by decide
example : repetitionOffset 5 = -1 := by decide
example : repetitionOffset (-5) = 1 := by decide
example : repetitionOffset 11 = -1 := by decide
example :
    computeTripleOffset 60 1 (mkTriple (1, 2, 3)) 48 72 false
      = some (true, some 64, some 3, mkTriple (1, 2, 3)) := by decide
example :
    computeTripleOffset 36 1 (mkTriple (1, 2, 3)) 48 72 false
      = some (true, some 52, some 3, { mkTriple (1, 2, 3) with offset := 1 }) := by decide
example :
    computeTripleOffset 36 1 (mkTriple (6, 2, 5)) 48 72 false
      = some (true, some 67, some 5, { mkTriple (6, 2, 5) with offset := 2 }) := by decide
example :
    computeTripleOffset 0 5 (mkTriple (1, 2, 5)) 60 66 true
      = some (false, none, none, mkTriple (1, 2, 5)) := by decide

/-- Invariant of a terminating `octaveLoop` run: started at an offset of
`q` octaves, a result `c` places the pitch in the window, and overshoot is
impossible (the last step before entering came from outside on the matching
side). -/
theorem octaveLoop_inv (mlo m mhi : Int) : ∀ (fuel : Nat) (off q c : Int), off = 12 * q →
    octaveLoop mlo m mhi fuel off = some c →
    (mlo ≤ m + 12 * c ∧ m + 12 * c ≤ mhi) ∧
    (q < c → m + 12 * c - 12 < mlo) ∧ (c < q → m + 12 * c + 12 > mhi) := by
  intro fuel
  induction fuel with
  | zero => intro off q c hq h; simp [octaveLoop] at h
  | succ n ih =>
    intro off q c hq h
    simp only [octaveLoop] at h
    split_ifs at h with hin hlo
    · rw [Option.some.injEq] at h
      omega
    · have := ih (off + 12) (q + 1) c (by omega) h
      omega
    · have := ih (off - 12) (q - 1) c (by omega) h
      omega

/-- A result of `computeOctaveOffset` satisfies `KOut`, and the range
assertion held. -/
theorem computeOctaveOffset_out (mlo m mhi c : Int)
    (h : computeOctaveOffset mlo m mhi = some c) :
    (0 ≤ mlo ∧ mlo < mhi ∧ mhi < 128) ∧ KOut mlo mhi m c := by
  unfold computeOctaveOffset at h
  split_ifs at h with hpre
  have := octaveLoop_inv mlo m mhi (octaveFuel mlo m mhi) 0 0 c (by ring) h
  exact ⟨hpre, ⟨this.1, by omega, by omega⟩⟩

/-- Climbing run of `octaveLoop`: if each of the first `j` positions is
below the window and position `j` is inside it, the loop returns after `j`
ascending steps. -/
theorem octaveLoop_up (mlo m mhi : Int) : ∀ (j : Nat) (fuel : Nat) (off q : Int),
    off = 12 * q → j + 1 ≤ fuel →
    (∀ i : Nat, i < j → m + 12 * (q + i) < mlo) →
    (mlo ≤ m + 12 * (q + j) ∧ m + 12 * (q + j) ≤ mhi) →
    octaveLoop mlo m mhi fuel off = some (q + j) := by
  intro j
  induction j with
  | zero =>
    intro fuel off q hq hf _ hw
    match fuel, hf with
    | n + 1, _ =>
      simp only [octaveLoop]
      rw [if_pos (by push_cast at hw ⊢; omega)]
      rw [Option.some.injEq]
      omega
  | succ j ih =>
    intro fuel off q hq hf hbelow hw
    match fuel, hf with
    | n + 1, _ =>
      have h0 : m + 12 * (q + (0 : Nat)) < mlo := hbelow 0 (by omega)
      simp only [octaveLoop]
      rw [if_neg (by push_cast at h0 ⊢; omega), if_pos (by push_cast at h0 ⊢; omega)]
      have step := ih n (off + 12) (q + 1) (by omega) (by omega)
        (fun i hi => by have := hbelow (i + 1) (by omega); push_cast at this ⊢; omega)
        (by push_cast at hw ⊢; omega)
      rw [step, Option.some.injEq]
      push_cast
      omega

/-- Descending run of `octaveLoop`: if each of the first `j` positions is
above the window and position `j` is inside it, the loop returns after `j`
descending steps. -/
theorem octaveLoop_down (mlo m mhi : Int) : ∀ (j : Nat) (fuel : Nat) (off q : Int),
    off = 12 * q → j + 1 ≤ fuel →
    (∀ i : Nat, i < j → m + 12 * (q - i) > mhi) →
    (mlo ≤ m + 12 * (q - j) ∧ m + 12 * (q - j) ≤ mhi) →
    octaveLoop mlo m mhi fuel off = some (q - j) := by
  intro j
  induction j with
  | zero =>
    intro fuel off q hq hf _ hw
    match fuel, hf with
    | n + 1, _ =>
      simp only [octaveLoop]
      rw [if_pos (by push_cast at hw ⊢; omega)]
      rw [Option.some.injEq]
      omega
  | succ j ih =>
    intro fuel off q hq hf habove hw
    match fuel, hf with
    | n + 1, _ =>
      have h0 : m + 12 * (q - (0 : Nat)) > mhi := habove 0 (by omega)
      have hwle : mlo ≤ mhi := le_trans hw.1 hw.2
      simp only [octaveLoop]
      rw [if_neg (by push_cast at h0 ⊢; omega), if_neg (by push_cast at h0 ⊢; omega)]
      have step := ih n (off - 12) (q - 1) (by omega) (by omega)
        (fun i hi => by have := habove (i + 1) (by omega); push_cast at this ⊢; omega)
        (by push_cast at hw ⊢; omega)
      rw [step, Option.some.injEq]
      push_cast
      omega

/-- Sufficiency of `octaveFuel`: whenever some whole number of octaves moves
the pitch into the window (exactly the condition under which the Python
`while` loop terminates), `computeOctaveOffset` returns a value. -/
theorem computeOctaveOffset_some_of_fit (mlo m mhi : Int)
    (hpre : 0 ≤ mlo ∧ mlo < mhi ∧ mhi < 128)
    (hfit : ∃ j : Int, mlo ≤ m + 12 * j ∧ m + 12 * j ≤ mhi) :
    ∃ c : Int, computeOctaveOffset mlo m mhi = some c := by
  obtain ⟨j, hj1, hj2⟩ := hfit
  unfold computeOctaveOffset
  rw [if_pos hpre]
  rcases lt_trichotomy m mlo with hlo | heq | hhi
  · -- pitch below the window: climb
    have hex : ∃ i : Nat, mlo ≤ m + 12 * (i : Int) := ⟨j.toNat, by omega⟩
    refine ⟨0 + (Nat.find hex : Int), octaveLoop_up mlo m mhi (Nat.find hex) _ 0 0 (by ring) ?_ ?_ ?_⟩
    · -- fuel bound
      have hub : (Nat.find hex : Int) ≤ j.toNat := by
        exact_mod_cast Nat.find_le (by omega)
      unfold octaveFuel
      rcases Nat.eq_zero_or_pos (Nat.find hex) with h0 | hpos
      · omega
      · have := Nat.find_min hex (show Nat.find hex - 1 < Nat.find hex by omega)
        omega
    · intro i hi
      have := Nat.find_min hex hi
      omega
    · have h1 := Nat.find_spec hex
      have hub : (Nat.find hex : Int) ≤ j.toNat := by
        exact_mod_cast Nat.find_le (by omega)
      omega
  · exact ⟨0 + (0 : Nat), octaveLoop_up mlo m mhi 0 _ 0 0 (by ring) (by unfold octaveFuel; omega)
      (by omega) (by push_cast; omega)⟩
  · -- pitch above the window: descend
    have hex : ∃ i : Nat, m + 12 * (-(i : Int)) ≤ mhi := ⟨(-j).toNat, by omega⟩
    refine ⟨0 - (Nat.find hex : Int), octaveLoop_down mlo m mhi (Nat.find hex) _ 0 0 (by ring) ?_ ?_ ?_⟩
    · have hub : (Nat.find hex : Int) ≤ (-j).toNat := by
        exact_mod_cast Nat.find_le (by omega)
      unfold octaveFuel
      rcases Nat.eq_zero_or_pos (Nat.find hex) with h0 | hpos
      · omega
      · have := Nat.find_min hex (show Nat.find hex - 1 < Nat.find hex by omega)
        omega
    · intro i hi
      have := Nat.find_min hex hi
      omega
    · have h1 := Nat.find_spec hex
      have hub : (Nat.find hex : Int) ≤ (-j).toNat := by
        exact_mod_cast Nat.find_le (by omega)
      omega

/-- The `KOut` characterization determines the loop result uniquely. -/
theorem KOut_unique (mlo mhi x a b : Int) (ha : KOut mlo mhi x a) (hb : KOut mlo mhi x b) :
    a = b := by
  unfold KOut at ha hb
  omega

/-- Trial 1 of the placement search can only succeed with common correction
0: its trial offset is the fit of the first pitch found on trial 0. -/
theorem trialOne_zero (mlo mhi p0 t1 c : Int)
    (h1 : KOut mlo mhi p0 t1) (s0 : KOut mlo mhi (p0 + 12 * t1) c) : c = 0 := by
  unfold KOut at h1 s0
  omega

/-- Trial 2 of the placement search can only succeed with common correction
0 (the case of a repeated trial offset 0 is handled separately). -/
theorem trialTwo_zero (mlo mhi p0 p1 t1 t2 c : Int)
    (h1 : KOut mlo mhi p0 t1) (h2 : KOut mlo mhi (p1 + 12 * t1) t2) (ht2 : t2 ≠ 0)
    (s0 : KOut mlo mhi (p0 + 12 * t2) c) (s1 : KOut mlo mhi (p1 + 12 * t2) c) : c = 0 := by
  unfold KOut at h1 h2 s0 s1
  omega

/-- Trial 3 of the placement search can only succeed with common correction
0 (the case of a repeated trial offset 0 is handled separately). -/
theorem trialThree_zero (mlo mhi p0 p1 p2 t1 t2 t3 c : Int)
    (h1 : KOut mlo mhi p0 t1) (h2 : KOut mlo mhi (p1 + 12 * t1) t2)
    (h3 : KOut mlo mhi (p2 + 12 * t2) t3) (ht3 : t3 ≠ 0)
    (s0 : KOut mlo mhi (p0 + 12 * t3) c) (s1 : KOut mlo mhi (p1 + 12 * t3) c)
    (s2 : KOut mlo mhi (p2 + 12 * t3) c) : c = 0 := by
  unfold KOut at h1 h2 h3 s0 s1 s2
  omega

/-- A failure result of the placement loop carries no pitch or degree and
the untouched input triple, whatever trial it is produced at. -/
theorem tripleLoop_false (m0 d0 : Int) (t : Triple) (mlo mhi : Int) (harmonic : Bool) :
    ∀ (rem : Nat) (toff : Int) (tries : Nat) (p dg : Option Int) (t2 : Triple),
    tripleLoop m0 d0 t mlo mhi harmonic toff tries rem = some (false, p, dg, t2) →
    p = none ∧ dg = none ∧ t2 = t := by
  intro rem
  induction rem with
  | zero => intro toff tries p dg t2 h; simp [tripleLoop] at h
  | succ n ih =>
    intro toff tries p dg t2 h
    simp only [tripleLoop] at h
    cases hch : midiChain m0 d0 t.nums harmonic with
    | none => simp [hch] at h
    | some qs =>
      obtain ⟨q1, q2, q3⟩ := qs
      cases ho1 : computeOctaveOffset mlo (q1 + 12 * toff) mhi with
      | none => simp [hch, ho1] at h
      | some o1 =>
        cases ho2 : computeOctaveOffset mlo (q2 + 12 * toff) mhi with
        | none => simp [hch, ho1, ho2] at h
        | some o2 =>
          cases ho3 : computeOctaveOffset mlo (q3 + 12 * toff) mhi with
          | none => simp [hch, ho1, ho2, ho3] at h
          | some o3 =>
            simp only [hch, ho1, ho2, ho3] at h
            by_cases hs : o2 = o1 ∧ o3 = o1
            · rw [if_pos hs] at h
              simp at h
            · rw [if_neg hs] at h
              by_cases hlt : tries < 3
              · rw [if_pos hlt] at h
                exact ih _ _ _ _ _ h
              · rw [if_neg hlt] at h
                simp only [Option.some.injEq, Prod.mk.injEq] at h
                exact ⟨h.2.1.symm, h.2.2.1.symm, h.2.2.2.symm⟩

/-- One unfolding step of the placement loop on a success result: the three
chained pitches and their three computed offsets exist, and either this
trial succeeded (with the stored offset as in the code) or the trial failed,
the retry budget was not exhausted, and the loop went on with the offset of
the note indexed by the trial counter. -/
theorem tripleLoop_step (m0 d0 : Int) (t : Triple) (mlo mhi : Int) (harmonic : Bool)
    (toff : Int) (tries rem : Nat) (p dg : Option Int) (t2 : Triple)
    (h : tripleLoop m0 d0 t mlo mhi harmonic toff tries (rem + 1) = some (true, p, dg, t2)) :
    ∃ q1 q2 q3 o1 o2 o3,
      midiChain m0 d0 t.nums harmonic = some (q1, q2, q3) ∧
      computeOctaveOffset mlo (q1 + 12 * toff) mhi = some o1 ∧
      computeOctaveOffset mlo (q2 + 12 * toff) mhi = some o2 ∧
      computeOctaveOffset mlo (q3 + 12 * toff) mhi = some o3 ∧
      ((o2 = o1 ∧ o3 = o1 ∧
          p = some (q3 + 12 * (if tries = 0 then o1 else toff)) ∧
          dg = some t.nums.2.2 ∧
          t2 = { t with offset := if tries = 0 then o1 else toff }) ∨
        (¬(o2 = o1 ∧ o3 = o1) ∧ tries < 3 ∧
          tripleLoop m0 d0 t mlo mhi harmonic (offsetAt o1 o2 o3 tries) (tries + 1) rem
            = some (true, p, dg, t2))) := by
  simp only [tripleLoop] at h
  cases hch : midiChain m0 d0 t.nums harmonic with
  | none => simp [hch] at h
  | some qs =>
    obtain ⟨q1, q2, q3⟩ := qs
    cases ho1 : computeOctaveOffset mlo (q1 + 12 * toff) mhi with
    | none => simp [hch, ho1] at h
    | some o1 =>
      cases ho2 : computeOctaveOffset mlo (q2 + 12 * toff) mhi with
      | none => simp [hch, ho1, ho2] at h
      | some o2 =>
        cases ho3 : computeOctaveOffset mlo (q3 + 12 * toff) mhi with
        | none => simp [hch, ho1, ho2, ho3] at h
        | some o3 =>
          simp only [hch, ho1, ho2, ho3] at h
          by_cases hs : o2 = o1 ∧ o3 = o1
          · rw [if_pos hs] at h
            simp only [Option.some.injEq, Prod.mk.injEq, true_and] at h
            exact ⟨q1, q2, q3, o1, o2, o3, rfl, ho1, ho2, ho3,
              Or.inl ⟨hs.1, hs.2, h.1.symm, h.2.1.symm, h.2.2.symm⟩⟩
          · rw [if_neg hs] at h
            by_cases hlt : tries < 3
            · rw [if_pos hlt] at h
              exact ⟨q1, q2, q3, o1, o2, o3, rfl, ho1, ho2, ho3, Or.inr ⟨hs, hlt, h⟩⟩
            · rw [if_neg hlt] at h
              simp at h

/-- A successful `constrain2Go` run is exactly a continuity-threaded
placement of the whole list. -/
theorem constrain2Go_placed (mlo mhi : Int) (harmonic : Bool) :
    ∀ (ts : List Triple) (m d : Int) (out : List Triple),
    constrain2Go mlo mhi harmonic m d ts = some out →
    Placed mlo mhi harmonic m d ts out := by
  intro ts
  induction ts with
  | nil =>
    intro m d out h
    simp only [constrain2Go, Option.some.injEq] at h
    rw [← h]
    exact .nil m d
  | cons t rest ih =>
    intro m d out h
    simp only [constrain2Go] at h
    cases hstep : computeTripleOffset m d t mlo mhi harmonic with
    | none => simp [hstep] at h
    | some res =>
      obtain ⟨b, pp, dd, t2⟩ := res
      cases b with
      | false => simp [hstep] at h
      | true =>
        cases pp with
        | none => simp [hstep] at h
        | some m2 =>
          cases dd with
          | none => simp [hstep] at h
          | some d2 =>
            simp only [hstep] at h
            cases hrest : constrain2Go mlo mhi harmonic m2 d2 rest with
            | none => simp [hrest] at h
            | some rest2 =>
              simp only [hrest, Option.some.injEq] at h
              rw [← h]
              exact .cons m d m2 d2 t t2 rest rest2 hstep (ih m2 d2 rest2 hrest)

/-- C1: whenever the placement of a triple reports success, the offset
stored in the returned triple is a common octave correction under which all
three chained pitches lie inside the inclusive window, and the returned
continuity value is exactly the third pitch shifted by that offset together
with the third degree — both for a success on the first trial (offset taken
from the first computed fit) and for a success on a later trial (offset
taken from the trial offset). -/
theorem computeTripleOffset_success_spec
    (m0 d0 : Int) (t : Triple) (mlo mhi : Int) (harmonic : Bool)
    (hd0 : 1 ≤ d0 ∧ d0 ≤ 7)
    (hnums : 1 ≤ t.nums.1 ∧ t.nums.1 ≤ 7 ∧ 1 ≤ t.nums.2.1 ∧ t.nums.2.1 ≤ 7 ∧
      1 ≤ t.nums.2.2 ∧ t.nums.2.2 ≤ 7)
    (hwin : 0 ≤ mlo ∧ mlo < mhi ∧ mhi < 128)
    (p dg : Option Int) (t2 : Triple)
    (h : computeTripleOffset m0 d0 t mlo mhi harmonic = some (true, p, dg, t2)) :
    ∃ q1 q2 q3, midiChain m0 d0 t.nums harmonic = some (q1, q2, q3) ∧
      (mlo ≤ q1 + 12 * t2.offset ∧ q1 + 12 * t2.offset ≤ mhi) ∧
      (mlo ≤ q2 + 12 * t2.offset ∧ q2 + 12 * t2.offset ≤ mhi) ∧
      (mlo ≤ q3 + 12 * t2.offset ∧ q3 + 12 * t2.offset ≤ mhi) ∧
      p = some (q3 + 12 * t2.offset) ∧ dg = some t.nums.2.2 := by
  unfold computeTripleOffset at h
  obtain ⟨q1, q2, q3, o1, o2, o3, hch, h1, h2, h3, hcase⟩ :=
    tripleLoop_step m0 d0 t mlo mhi harmonic 0 0 3 p dg t2 h
  simp only [mul_zero, add_zero] at h1 h2 h3
  have k1 := (computeOctaveOffset_out mlo q1 mhi o1 h1).2
  have k2 := (computeOctaveOffset_out mlo q2 mhi o2 h2).2
  have k3 := (computeOctaveOffset_out mlo q3 mhi o3 h3).2
  rcases hcase with ⟨he2, he3, hp, hdg, ht2⟩ | ⟨hf0, _, h⟩
  · -- success on trial 0: the stored offset is the common fit itself
    norm_num at hp ht2
    subst ht2
    simp only [offset_update]
    unfold KOut at k1 k2 k3
    exact ⟨q1, q2, q3, hch, ⟨by omega, by omega⟩, ⟨by omega, by omega⟩,
      ⟨by omega, by omega⟩, hp, hdg⟩
  · -- trial 0 failed; trial 1 runs with the fit of the first pitch
    simp only [offsetAt] at h
    obtain ⟨q1a, q2a, q3a, b1, b2, b3, hcha, hb1, hb2, hb3, hcaseb⟩ :=
      tripleLoop_step m0 d0 t mlo mhi harmonic o1 1 2 p dg t2 h
    rw [hch, Option.some.injEq, Prod.mk.injEq, Prod.mk.injEq] at hcha
    obtain ⟨ea1, ea2, ea3⟩ := hcha
    subst ea1; subst ea2; subst ea3
    have kb1 := (computeOctaveOffset_out mlo (q1 + 12 * o1) mhi b1 hb1).2
    have kb2 := (computeOctaveOffset_out mlo (q2 + 12 * o1) mhi b2 hb2).2
    have kb3 := (computeOctaveOffset_out mlo (q3 + 12 * o1) mhi b3 hb3).2
    rcases hcaseb with ⟨hc2, hc3, hp, hdg, ht2⟩ | ⟨hf1, _, h⟩
    · -- success on trial 1: the first offset is forcibly 0, so all are
      norm_num at hp ht2
      subst ht2
      simp only [offset_update]
      have hb10 : b1 = 0 := trialOne_zero mlo mhi q1 o1 b1 k1 kb1
      unfold KOut at kb1 kb2 kb3
      exact ⟨q1, q2, q3, hch, ⟨by omega, by omega⟩, ⟨by omega, by omega⟩,
        ⟨by omega, by omega⟩, hp, hdg⟩
    · -- trial 1 failed; trial 2 runs with the second offset of trial 1
      simp only [offsetAt] at h
      obtain ⟨q1b, q2b, q3b, c1, c2, c3, hchb, hcy1, hcy2, hcy3, hcasec⟩ :=
        tripleLoop_step m0 d0 t mlo mhi harmonic b2 2 1 p dg t2 h
      rw [hch, Option.some.injEq, Prod.mk.injEq, Prod.mk.injEq] at hchb
      obtain ⟨eb1, eb2, eb3⟩ := hchb
      subst eb1; subst eb2; subst eb3
      have kc1 := (computeOctaveOffset_out mlo (q1 + 12 * b2) mhi c1 hcy1).2
      have kc2 := (computeOctaveOffset_out mlo (q2 + 12 * b2) mhi c2 hcy2).2
      have kc3 := (computeOctaveOffset_out mlo (q3 + 12 * b2) mhi c3 hcy3).2
      rcases hcasec with ⟨hd2, hd3, hp, hdg, ht2⟩ | ⟨hf2, _, h⟩
      · -- success on trial 2
        norm_num at hp ht2
        subst ht2
        simp only [offset_update]
        have hc10 : c1 = 0 := by
          by_cases hb2z : b2 = 0
          · subst hb2z
            simp only [mul_zero, add_zero] at kc1 kc2 kc3
            have u1 := KOut_unique mlo mhi q1 o1 c1 k1 kc1
            have u2 := KOut_unique mlo mhi q2 o2 c2 k2 kc2
            have u3 := KOut_unique mlo mhi q3 o3 c3 k3 kc3
            exact absurd ⟨by omega, by omega⟩ hf0
          · rw [hd2] at kc2
            exact trialTwo_zero mlo mhi q1 q2 o1 b2 c1 k1 kb2 hb2z kc1 kc2
        unfold KOut at kc1 kc2 kc3
        exact ⟨q1, q2, q3, hch, ⟨by omega, by omega⟩, ⟨by omega, by omega⟩,
          ⟨by omega, by omega⟩, hp, hdg⟩
      · -- trial 2 failed; trial 3 runs with the third offset of trial 2
        simp only [offsetAt] at h
        obtain ⟨q1c, q2c, q3c, w1, w2, w3, hchc, hwy1, hwy2, hwy3, hcased⟩ :=
          tripleLoop_step m0 d0 t mlo mhi harmonic c3 3 0 p dg t2 h
        rw [hch, Option.some.injEq, Prod.mk.injEq, Prod.mk.injEq] at hchc
        obtain ⟨ec1, ec2, ec3⟩ := hchc
        subst ec1; subst ec2; subst ec3
        have kw1 := (computeOctaveOffset_out mlo (q1 + 12 * c3) mhi w1 hwy1).2
        have kw2 := (computeOctaveOffset_out mlo (q2 + 12 * c3) mhi w2 hwy2).2
        have kw3 := (computeOctaveOffset_out mlo (q3 + 12 * c3) mhi w3 hwy3).2
        rcases hcased with ⟨hg2, hg3, hp, hdg, ht2⟩ | ⟨_, hlt, _⟩
        · -- success on trial 3
          norm_num at hp ht2
          subst ht2
          simp only [offset_update]
          have hw10 : w1 = 0 := by
            by_cases hc3z : c3 = 0
            · subst hc3z
              simp only [mul_zero, add_zero] at kw1 kw2 kw3
              have u1 := KOut_unique mlo mhi q1 o1 w1 k1 kw1
              have u2 := KOut_unique mlo mhi q2 o2 w2 k2 kw2
              have u3 := KOut_unique mlo mhi q3 o3 w3 k3 kw3
              exact absurd ⟨by omega, by omega⟩ hf0
            · rw [hg2] at kw2
              rw [hg3] at kw3
              have kcz3 := (computeOctaveOffset_out mlo (q3 + 12 * b2) mhi c3 hcy3).2
              exact trialThree_zero mlo mhi q1 q2 q3 o1 b2 c3 w1 k1 kb2 kcz3 hc3z kw1 kw2 kw3
          unfold KOut at kw1 kw2 kw3
          exact ⟨q1, q2, q3, hch, ⟨by omega, by omega⟩, ⟨by omega, by omega⟩,
            ⟨by omega, by omega⟩, hp, hdg⟩
        · -- the retry budget is exhausted at trial 3
          exact absurd hlt (by norm_num)

/-- C1 witness: the regression case that succeeds on the second trial with
stored offset 2 (prior pitch 36, triple (6, 2, 5), window 48..72). -/
theorem computeTripleOffset_success_spec_witness :
    ∃ q1 q2 q3, midiChain 36 1 (mkTriple (6, 2, 5)).nums false = some (q1, q2, q3) ∧
      ((48 : Int) ≤ q1 + 12 * 2 ∧ q1 + 12 * 2 ≤ 72) ∧
      ((48 : Int) ≤ q2 + 12 * 2 ∧ q2 + 12 * 2 ≤ 72) ∧
      ((48 : Int) ≤ q3 + 12 * 2 ∧ q3 + 12 * 2 ≤ 72) ∧
      (some 67 : Option Int) = some (q3 + 12 * 2) ∧
      (some 5 : Option Int) = some ((5 : Int)) :=
  computeTripleOffset_success_spec 36 1 (mkTriple (6, 2, 5)) 48 72 false
    (by norm_num) (by decide) (by norm_num) (some 67) (some 5)
    ⟨(6, 2, 5), some 7, 2⟩ (by decide)

/-- C2: a successful batch placement threads continuity exactly: the state
is initialized from `midiFirst`, and the last pitch and degree returned for
each triple are the prior pitch and degree of the placement that follows. -/
theorem constrain2_threads_continuity
    (triples : List Triple) (mlo mhi keynum : Int) (harmonic : Bool) (out : List Triple)
    (h : constrain2 triples mlo mhi keynum harmonic = some out) :
    ∃ m d, midiFirst keynum harmonic = some (m, d) ∧
      Placed mlo mhi harmonic m d triples out := by
  unfold constrain2 at h
  cases hmf : midiFirst keynum harmonic with
  | none =>
    rw [hmf] at h
    exact Option.noConfusion (show (none : Option (List Triple)) = some out from h)
  | some md =>
    obtain ⟨m, d⟩ := md
    simp only [hmf] at h
    exact ⟨m, d, rfl, constrain2Go_placed mlo mhi harmonic triples m d out h⟩

/-- C2 witness: one triple placed in the key of C inside the window 48..72. -/
theorem constrain2_threads_continuity_witness :
    ∃ m d, midiFirst 0 false = some (m, d) ∧
      Placed 48 72 false m d [mkTriple (1, 2, 3)] [mkTriple (1, 2, 3)] :=
  constrain2_threads_continuity [mkTriple (1, 2, 3)] 48 72 0 false
    [mkTriple (1, 2, 3)] (by decide)

/-- C3: the placement search runs at most 4 trials — at any trial index of
at least 3 a failed agreement check returns a failure immediately —, a
failure result carries no pitch or degree and leaves the triple exactly as
it was, and the batch traversal aborts with no result as soon as one
placement of some triple reports failure instead of skipping it. -/
theorem placement_failure_spec (m0 d0 : Int) (t : Triple) (mlo mhi : Int) (harmonic : Bool) :
    (∀ p dg t2, computeTripleOffset m0 d0 t mlo mhi harmonic = some (false, p, dg, t2) →
      p = none ∧ dg = none ∧ t2 = t) ∧
    (∀ (trialoffset : Int) (tries rem : Nat) (q1 q2 q3 o1 o2 o3 : Int), 3 ≤ tries →
      midiChain m0 d0 t.nums harmonic = some (q1, q2, q3) →
      computeOctaveOffset mlo (q1 + 12 * trialoffset) mhi = some o1 →
      computeOctaveOffset mlo (q2 + 12 * trialoffset) mhi = some o2 →
      computeOctaveOffset mlo (q3 + 12 * trialoffset) mhi = some o3 →
      ¬(o2 = o1 ∧ o3 = o1) →
      tripleLoop m0 d0 t mlo mhi harmonic trialoffset tries (rem + 1)
        = some (false, none, none, t)) ∧
    (∀ (m d : Int) (rest : List Triple),
      computeTripleOffset m d t mlo mhi harmonic = some (false, none, none, t) →
      constrain2Go mlo mhi harmonic m d (t :: rest) = none) := by
  refine ⟨?_, ?_, ?_⟩
  · intro p dg t2 h
    exact tripleLoop_false m0 d0 t mlo mhi harmonic 4 0 0 p dg t2 h
  · intro trialoffset tries rem q1 q2 q3 o1 o2 o3 h3 hch ho1 ho2 ho3 hne
    simp only [tripleLoop, hch, ho1, ho2, ho3]
    rw [if_neg hne, if_neg (by omega)]
  · intro m d rest h
    simp only [constrain2Go, h]

/-- C3 witness: a concrete reachable failure (prior pitch 0, degree 5,
triple (1, 2, 5), window 60..66, harmonic mode): the failure tuple leaves
the triple untouched and the batch traversal aborts on it. -/
theorem placement_failure_spec_witness :
    computeTripleOffset 0 5 (mkTriple (1, 2, 5)) 60 66 true
      = some (false, none, none, mkTriple (1, 2, 5)) ∧
    constrain2Go 60 66 true 0 5 [mkTriple (1, 2, 5)] = none := by
  have hfail : computeTripleOffset 0 5 (mkTriple (1, 2, 5)) 60 66 true
      = some (false, none, none, mkTriple (1, 2, 5)) := by decide
  exact ⟨hfail, (placement_failure_spec 0 5 (mkTriple (1, 2, 5)) 60 66 true).2.2 0 5 [] hfail⟩

/-- C4 (amended): under the range precondition, whenever some whole number
of octaves places the pitch inside the window, `computeOctaveOffset`
returns the smallest-magnitude such number — in particular the returned
offset places the pitch inside the window — and the regression equalities
hold.  As literally stated the claim fails, because for a window narrower
than an octave no fitting offset need exist and the loop then never
returns. -/
theorem computeOctaveOffset_smallest_magnitude :
    (∀ mlo m mhi : Int, 0 ≤ mlo → mlo < mhi → mhi < 128 →
      (∃ j : Int, mlo ≤ m + 12 * j ∧ m + 12 * j ≤ mhi) →
      ∃ c : Int, computeOctaveOffset mlo m mhi = some c ∧
        mlo ≤ m + 12 * c ∧ m + 12 * c ≤ mhi ∧
        ∀ j : Int, mlo ≤ m + 12 * j → m + 12 * j ≤ mhi → c.natAbs ≤ j.natAbs) ∧
    computeOctaveOffset 60 59 72 = some 1 ∧ computeOctaveOffset 60 85 72 = some (-2) := by
  refine ⟨?_, by decide, by decide⟩
  intro mlo m mhi h1 h2 h3 hfit
  obtain ⟨c, hc⟩ := computeOctaveOffset_some_of_fit mlo m mhi ⟨h1, h2, h3⟩ hfit
  have hk := (computeOctaveOffset_out mlo m mhi c hc).2
  unfold KOut at hk
  refine ⟨c, hc, by omega, by omega, ?_⟩
  intro j hj1 hj2
  omega

/-- C4 counterexample: the precondition 0 ≤ 60 < 61 < 128 holds, yet on
pitch 59 the function returns nothing (no octave shift can reach the
window, and the Python loop oscillates between 59 and 71 forever). -/
theorem computeOctaveOffset_no_fit_counterexample :
    (0 : Int) ≤ 60 ∧ (60 : Int) < 61 ∧ (61 : Int) < 128 ∧
    computeOctaveOffset 60 59 61 = none := by decide

/-- C4 witness: the smallest-magnitude property at the regression input. -/
theorem computeOctaveOffset_smallest_magnitude_witness :
    ∃ c : Int, computeOctaveOffset 60 59 72 = some c ∧
      60 ≤ 59 + 12 * c ∧ 59 + 12 * c ≤ 72 ∧
      ∀ j : Int, 60 ≤ 59 + 12 * j → 59 + 12 * j ≤ 72 → c.natAbs ≤ j.natAbs :=
  computeOctaveOffset_smallest_magnitude.1 60 59 72 (by norm_num) (by norm_num)
    (by norm_num) ⟨1, by norm_num⟩

/-- C5 (amended): under the range precondition the loop terminates for
every pitch for which some whole number of octaves reaches the window — in
particular always when the window spans at least a full octave
(`mlo + 11 ≤ mhi`).  As literally stated the claim fails: on narrower
windows there are pitches on which the loop oscillates forever. -/
theorem computeOctaveOffset_terminating_cases (mlo m mhi : Int)
    (h1 : 0 ≤ mlo) (h2 : mlo < mhi) (h3 : mhi < 128) :
    ((∃ j : Int, mlo ≤ m + 12 * j ∧ m + 12 * j ≤ mhi) →
      ∃ c : Int, computeOctaveOffset mlo m mhi = some c) ∧
    (mlo + 11 ≤ mhi → ∃ c : Int, computeOctaveOffset mlo m mhi = some c) := by
  constructor
  · exact fun hfit => computeOctaveOffset_some_of_fit mlo m mhi ⟨h1, h2, h3⟩ hfit
  · intro hw
    refine computeOctaveOffset_some_of_fit mlo m mhi ⟨h1, h2, h3⟩
      ⟨(mlo - m + 11) / 12, ?_, ?_⟩ <;> omega

/-- C5 counterexample: the precondition 0 ≤ 60 < 61 < 128 holds, yet on
pitch 62 the loop never terminates (it oscillates between 62 and 50). -/
theorem computeOctaveOffset_divergence_counterexample :
    (0 : Int) ≤ 60 ∧ (60 : Int) < 61 ∧ (61 : Int) < 128 ∧
    computeOctaveOffset 60 62 61 = none := by decide

/-- C5 witness: termination on the window 60..72 for pitch 59. -/
theorem computeOctaveOffset_terminating_cases_witness :
    ∃ c : Int, computeOctaveOffset 60 59 72 = some c :=
  (computeOctaveOffset_terminating_cases 60 59 72 (by norm_num) (by norm_num)
    (by norm_num)).2 (by norm_num)

/-- Floored division by -8 expressed through Euclidean division: both sides
compute the floor of `x / -8`. -/
theorem fdiv_neg_eight (x : Int) : Int.fdiv x (-8) = (-x) / 8 := by
  cases x with
  | ofNat m =>
    cases m with
    | zero => rfl
    | succ m => rfl
  | negSucc m => rfl

/-- C6: `repetitionOffset` computes exactly the stated piecewise policy
with Python floored `divmod` (the remainder carries the sign of the divisor),
and the regression values hold. -/
theorem repetitionOffset_divmod_spec :
    (∀ x : Int, x = 0 → repetitionOffset x = 0) ∧
    (∀ x : Int, 0 < x → ∃ n r : Int, x = 8 * n + r ∧ 0 ≤ r ∧ r < 8 ∧
      repetitionOffset x = if r + n ≤ 4 then -n else n - 1) ∧
    (∀ x : Int, x < 0 → ∃ n r : Int, x = -8 * n + r ∧ -8 < r ∧ r ≤ 0 ∧
      repetitionOffset x = if r - n ≥ -4 then n else n + 1) ∧
    repetitionOffset 4 = 0 ∧ repetitionOffset 5 = -1 ∧
    repetitionOffset (-5) = 1 ∧ repetitionOffset 11 = -1 := by
  refine ⟨?_, ?_, ?_, by decide, by decide, by decide, by decide⟩
  · intro x hx
    rw [hx]
    decide
  · intro x hx
    refine ⟨Int.fdiv x 8, Int.fmod x 8, ?_, ?_, ?_, ?_⟩
    · rw [Int.fdiv_eq_ediv x (by norm_num), Int.fmod_eq_emod x (by norm_num)]
      omega
    · rw [Int.fmod_eq_emod x (by norm_num)]
      omega
    · rw [Int.fmod_eq_emod x (by norm_num)]
      omega
    · unfold repetitionOffset
      rw [if_neg (by omega), if_pos hx]
  · intro x hx
    have hd : Int.fdiv x (-8) = (-x) / 8 := fdiv_neg_eight x
    have hm : Int.fmod x (-8) = x - (-8) * ((-x) / 8) := by
      rw [Int.fmod_def, hd]
    refine ⟨Int.fdiv x (-8), Int.fmod x (-8), ?_, ?_, ?_, ?_⟩
    · rw [hd, hm]
      omega
    · rw [hm]
      omega
    · rw [hm]
      omega
    · unfold repetitionOffset
      rw [if_neg (by omega), if_neg (by omega)]

/-- C6 witness: the positive divmod branch at 5. -/
theorem repetitionOffset_divmod_spec_witness :
    ∃ n r : Int, 5 = 8 * n + r ∧ 0 ≤ r ∧ r < 8 ∧
      repetitionOffset 5 = if r + n ≤ 4 then -n else n - 1 :=
  repetitionOffset_divmod_spec.2.1 5 (by norm_num)

/-- C7: for degrees in range, `midiNext` returns the prior pitch unchanged
on equal degrees, and otherwise the semitone-table difference plus the
harmonic-minor correction around degree 5, plus an octave wrap of +12 when
the reduced interval is ascending with a numerically lower target degree
and of -12 when it is descending with a numerically higher target degree. -/
theorem midiNext_formula (m0 d0 d1 : Int) (harmonic : Bool)
    (h1 : 1 ≤ d0) (h2 : d0 ≤ 7) (h3 : 1 ≤ d1) (h4 : d1 ≤ 7) :
    (d1 = d0 → midiNext m0 d0 d1 harmonic = some m0) ∧
    (d1 ≠ d0 → ∀ ir : Int, intervalReduced d0 d1 = some ir →
      midiNext m0 d0 d1 harmonic =
        some (m0 + d2m d1 - d2m d0 +
          (if harmonic = true ∧ d0 = 5 then -1
            else if harmonic = true ∧ d1 = 5 then 1 else 0) +
          (if 1 ≤ ir ∧ d1 < d0 then 12
            else if ir < 1 ∧ d0 < d1 then -12 else 0))) := by
  constructor
  · intro he
    subst he
    simp [midiNext]
  · intro hne ir hir
    unfold midiNext
    rw [if_neg (fun hh => hne hh.symm)]
    simp only [hir]
    cases harmonic with
    | false =>
      simp only [Bool.false_eq_true, if_false, false_and]
      split_ifs <;> first
      | (rw [Option.some.injEq]; omega)
      | omega
    | true =>
      simp only [if_pos rfl, true_and]
      split_ifs <;> first
      | (rw [Option.some.injEq]; omega)
      | omega

/-- C7 witness: the descending-wrap case, key of D, e down to c sharp. -/
theorem midiNext_formula_witness : midiNext 64 2 7 false = some 61 := by
  have h := (midiNext_formula 64 2 7 false (by norm_num) (by norm_num) (by norm_num)
    (by norm_num)).2 (by norm_num) (-3) (by decide)
  norm_num [d2m] at h
  exact h

/-- The accumulator loop of `excursion` coincides with the fold over the
zipped list of consecutive pairs. -/
theorem excursionAcc_foldlM : ∀ (ps : List Int) (x : Int),
    excursionAcc x ps = (ps.zip ps.tail).foldlM excursionStep x := by
  intro ps
  induction ps with
  | nil => intro x; rfl
  | cons p rest ih =>
    intro x
    cases rest with
    | nil => rfl
    | cons q rest2 =>
      simp only [List.tail_cons, List.zip_cons_cons, List.foldlM_cons]
      cases hir : intervalReduced p q with
      | none => simp [excursionAcc, excursionStep, hir]
      | some ir =>
        simp only [excursionAcc, excursionStep, hir, Option.bind_some]
        rw [ih]
        simp [List.tail_cons]

/-- C8: `excursion` equals the fold of the specification over consecutive pairs
with the end bias, yields 1 on sequences shorter than 2, and satisfies the
regression values. -/
theorem excursion_fold_spec :
    (∀ ps : List Int, excursion ps = excursionSpecFold ps) ∧
    (∀ ps : List Int, ps.length < 2 → excursion ps = some 1) ∧
    excursion [1, 3, 5] = some 5 ∧ excursion [1, 5, 3] = some (-6) ∧
    excursion [1, 3, 5, 1, 3] = some 10 := by
  refine ⟨?_, ?_, by decide, by decide, by decide⟩
  · intro ps
    unfold excursion excursionSpecFold
    rw [excursionAcc_foldlM]
  · intro ps hlen
    rcases ps with _ | ⟨p, _ | ⟨q, rest⟩⟩
    · decide
    · rfl
    · simp only [List.length_cons] at hlen
      exact absurd hlen (by omega)

/-- C8 witness: a singleton sequence has excursion 1. -/
theorem excursion_fold_spec_witness : excursion [4] = some 1 :=
  excursion_fold_spec.2.1 [4] (by norm_num)

/-- C9: for degrees in range, the reduced interval is the ascending
interval when that is at most 4 and its descending complement otherwise,
always lies in {-4, -3, -2, 1, 2, 3, 4}, has magnitude at most 4 and is
never 0; the ascending interval lies in 1..7. -/
theorem intervalReduced_range (d0 d1 : Int)
    (h1 : 1 ≤ d0) (h2 : d0 ≤ 7) (h3 : 1 ≤ d1) (h4 : d1 ≤ 7) :
    ∃ v : Int, intervalReduced d0 d1 = some v ∧
      1 ≤ intervalAsc d0 d1 ∧ intervalAsc d0 d1 ≤ 7 ∧
      v = (if intervalAsc d0 d1 ≤ 4 then intervalAsc d0 d1
        else -(9 - intervalAsc d0 d1)) ∧
      (v = -4 ∨ v = -3 ∨ v = -2 ∨ v = 1 ∨ v = 2 ∨ v = 3 ∨ v = 4) ∧
      v.natAbs ≤ 4 ∧ v ≠ 0 := by
  interval_cases d0 <;> interval_cases d1 <;> exact ⟨_, rfl, by decide⟩

/-- C9 witness: the pair (2, 6). -/
theorem intervalReduced_range_witness :
    ∃ v : Int, intervalReduced 2 6 = some v ∧
      1 ≤ intervalAsc 2 6 ∧ intervalAsc 2 6 ≤ 7 ∧
      v = (if intervalAsc 2 6 ≤ 4 then intervalAsc 2 6 else -(9 - intervalAsc 2 6)) ∧
      (v = -4 ∨ v = -3 ∨ v = -2 ∨ v = 1 ∨ v = 2 ∨ v = 3 ∨ v = 4) ∧
      v.natAbs ≤ 4 ∧ v ≠ 0 :=
  intervalReduced_range 2 6 (by norm_num) (by norm_num) (by norm_num) (by norm_num)

/-- C10: for degrees in range, `midiNext` always returns a value: the case
split on the sign of the reduced interval crossed with the order of the
degrees is exhaustive, so the implicit fall-through branch is
unreachable. -/
theorem midiNext_total (m0 d0 d1 : Int) (harmonic : Bool)
    (h1 : 1 ≤ d0) (h2 : d0 ≤ 7) (h3 : 1 ≤ d1) (h4 : d1 ≤ 7) :
    ∃ v : Int, midiNext m0 d0 d1 harmonic = some v := by
  unfold midiNext
  by_cases he : d0 = d1
  · rw [if_pos he]
    exact ⟨m0, rfl⟩
  · rw [if_neg he]
    have hir : intervalReduced d0 d1
        = some (if intervalAsc d0 d1 ≤ 4 then intervalAsc d0 d1
          else -(9 - intervalAsc d0 d1)) := by
      unfold intervalReduced
      rw [if_pos ⟨h1, h2, h3, h4⟩]
    simp only [hir]
    set irv := (if intervalAsc d0 d1 ≤ 4 then intervalAsc d0 d1
      else -(9 - intervalAsc d0 d1)) with hirv
    rcases lt_or_gt_of_ne he with hlt | hgt
    · by_cases hge : (1 : Int) ≤ irv
      · exact ⟨_, by rw [if_pos (show irv ≥ 1 ∧ d1 > d0 from ⟨hge, hlt⟩)]⟩
      · exact ⟨_, by rw [if_neg (show ¬(irv ≥ 1 ∧ d1 > d0) from by omega),
          if_neg (show ¬(irv ≥ 1 ∧ d1 < d0) from by omega),
          if_pos (show irv < 1 ∧ d1 > d0 from ⟨by omega, hlt⟩)]⟩
    · by_cases hge : (1 : Int) ≤ irv
      · exact ⟨_, by rw [if_neg (show ¬(irv ≥ 1 ∧ d1 > d0) from by omega),
          if_pos (show irv ≥ 1 ∧ d1 < d0 from ⟨hge, hgt⟩)]⟩
      · exact ⟨_, by rw [if_neg (show ¬(irv ≥ 1 ∧ d1 > d0) from by omega),
          if_neg (show ¬(irv ≥ 1 ∧ d1 < d0) from by omega),
          if_neg (show ¬(irv < 1 ∧ d1 > d0) from by omega),
          if_pos (show irv < 1 ∧ d1 < d0 from ⟨by omega, hgt⟩)]⟩

/-- C10 witness: degrees 1 to 4 from middle C. -/
theorem midiNext_total_witness : ∃ v : Int, midiNext 60 1 4 false = some v :=
  midiNext_total 60 1 4 false (by norm_num) (by norm_num) (by norm_num) (by norm_num)

end AllTriples
